import Mathlib

/-!
Verification of the COO sparse-dot kernel of the `numba_on_dask` notebook
(repository `NESII/sparse_dot`).

The notebook's computational core is:

  def sparse_dot(data_out, data, col, row, S):
      for j in range(data.shape[0]):
          for i in range(S.size):
              data_out[j, row[i]] += data[j, col[i]]*S[i]

  def sparse_dot_pa(...):   # identical body, prange over j
  def apply_A(data, parallel=False):
      data_out = np.zeros([data.shape[0], 120000])
      (sparse_dot_pa if parallel else sparse_dot)(data_out, data, col, row, S)
      return data_out

We embed batches as `List (List α)` (row-major: one inner list per sample
row) and the operator as an explicit record (the notebook closes over the
global arrays `col`, `row`, `S` and hardcodes the output width 120000; the
record simply names those globals, as the spec's design notes direct).
Arithmetic is kept abstract (`Zero`/`Add`/`Mul` with no laws) where only the
accumulation order matters, and instantiated at `ℚ` (exact arithmetic) for
the algebraic properties.  Out-of-range reads return the default `0` and
out-of-range writes are dropped (`List.set` out of bounds is a no-op); the
compiled kernel performs no bounds checks there, so every in-bounds
execution agrees with this model.
-/

namespace SparseDot

/-- The sparse operator in coordinate (COO) form: parallel arrays `col`
(source column per nonzero), `row` (destination row per nonzero), `weight`
(coefficient per nonzero), plus the two dense widths.  In the notebook these
are the globals `col`, `row`, `S` and the hardcoded widths 240000/120000. -/
structure SparseOperator (α : Type) where
  col : List ℕ
  row : List ℕ
  weight : List α
  input_width : ℕ
  output_width : ℕ

/-- The nonzero triples `(col[i], row[i], weight[i])` in ascending order of `i`. -/
def triples {α : Type} (op : SparseOperator α) : List (ℕ × ℕ × α) :=
  op.col.zip (op.row.zip op.weight)

/-- Inner loop of `sparse_dot` for one fixed sample row `j`:
`for i in range(S.size): out[row[i]] += dataRow[col[i]] * S[i]`,
processing the nonzero triples in ascending order of `i`. -/
def accumRow {α : Type} [Zero α] [Add α] [Mul α] (dataRow : List α) :
    List (ℕ × ℕ × α) → List α → List α
  | [], out => out
  | (c, r, w) :: rest, out =>
      accumRow dataRow rest (out.set r (out.getD r 0 + dataRow.getD c 0 * w))

/-- The serial kernel `sparse_dot(data_out, data, col, row, S)`: for each
sample row `j` (pairing `data_out[j]` with `data[j]`), run the inner
accumulation loop.  The notebook call sites always pass a `data_out` with
exactly `data.shape[0]` rows. -/
def sparse_dot {α : Type} [Zero α] [Add α] [Mul α]
    (data_out data : List (List α)) (col row : List ℕ) (S : List α) :
    List (List α) :=
  (data_out.zip data).map (fun p => accumRow p.2 (col.zip (row.zip S)) p.1)

/-- The row-parallel kernel `sparse_dot_pa`: the body is textually identical
to `sparse_dot`, only the loop over `j` is a `prange`.  Each `j` iteration
touches only its own pair of rows, so the parallel loop computes the same
per-row results in the same per-row, ascending-`i` order. -/
def sparse_dot_pa {α : Type} [Zero α] [Add α] [Mul α]
    (data_out data : List (List α)) (col row : List ℕ) (S : List α) :
    List (List α) :=
  (data_out.zip data).map (fun p => accumRow p.2 (col.zip (row.zip S)) p.1)

/-- `apply_A(data, parallel)`: allocate a zero-initialized output of shape
`(data.shape[0], output_width)` and run the chosen kernel on it with the
operator's arrays. -/
def apply_A {α : Type} [Zero α] [Add α] [Mul α]
    (op : SparseOperator α) (data : List (List α)) (parallel : Bool) :
    List (List α) :=
  let func := if parallel then sparse_dot_pa else sparse_dot
  let data_out := List.replicate data.length (List.replicate op.output_width (0 : α))
  func data_out data op.col op.row op.weight

/-- The result of `apply_A` for a single sample row: the inner loop run on a
fresh zero row of length `output_width`. -/
def applyRow {α : Type} [Zero α] [Add α] [Mul α]
    (op : SparseOperator α) (dataRow : List α) : List α :=
  accumRow dataRow (triples op) (List.replicate op.output_width (0 : α))

/-- Chunked/distributed execution (the dask path): partition the batch along
the row axis, run `apply_A` on every chunk independently, and concatenate the
chunk outputs along the row axis in the original order. -/
def apply_chunked {α : Type} [Zero α] [Add α] [Mul α]
    (op : SparseOperator α) (chunks : List (List (List α))) : List (List α) :=
  (chunks.map (fun ch => apply_A op ch false)).flatten

/-- Operator construction as the notebook performs it (`col = ds['col'].values - 1`
etc.): subtract 1 from the externally 1-based index arrays and store everything,
with no validation of any kind.  Raw indices are modelled as naturals (the
reference data is 1-based, hence positive). -/
def load_operator (raw_col raw_row : List ℕ) (S : List ℚ)
    (input_width output_width : ℕ) : SparseOperator ℚ :=
  { col := raw_col.map (fun x => x - 1)
    row := raw_row.map (fun x => x - 1)
    weight := S
    input_width := input_width
    output_width := output_width }

/-- Error type named by the spec's `apply` contract. -/
inductive ApplyError : Type where
  | ShapeMismatch : ApplyError
deriving DecidableEq

/-- Modelled from the spec: the checked `apply` contract of spec section 4.1
("Preconditions: `batch.shape[1] == operator.input_width`; fails with
`ShapeMismatch` otherwise").  No such check exists anywhere in the source;
this definition exists only to compare the spec's contract with the code's
unchecked `apply_A`. -/
def apply_checked (op : SparseOperator ℚ) (data : List (List ℚ)) :
    Except ApplyError (List (List ℚ)) :=
  if data.all (fun r => r.length == op.input_width) then
    Except.ok (apply_A op data false)
  else
    Except.error ApplyError.ShapeMismatch

/-- Elementwise sum of two batches (defined where shapes match). -/
def batchAdd (d1 d2 : List (List ℚ)) : List (List ℚ) :=
  List.zipWith (fun r1 r2 => List.zipWith (fun x y => x + y) r1 r2) d1 d2

/-- Scalar multiple of a batch, elementwise. -/
def batchSmul (a : ℚ) (d : List (List ℚ)) : List (List ℚ) :=
  d.map (fun r => r.map (fun x => a * x))

/-- The concrete operator of the spec's test scenario: `nnz=3`,
`col=[0,1,1]`, `row=[0,0,1]`, `weight=[1.0,2.0,3.0]`, widths 2 and 2. -/
def op7 : SparseOperator ℚ :=
  { col := [0, 1, 1], row := [0, 0, 1], weight := [1, 2, 3],
    input_width := 2, output_width := 2 }

/-- An identity-like operator satisfying every condition the spec lists for
an "identity-like permutation" (equal widths, `row[i] == col[i]`,
`weight[i] == 1`, no duplicate rows, rows in range) except coverage: index 1
never appears as a destination row. -/
def opId : SparseOperator ℚ :=
  { col := [0], row := [0], weight := [1], input_width := 2, output_width := 2 }

/-- Contribution of one nonzero triple to a destination cell, for a given
sample row: `dataRow[col[i]] * S[i]`. -/
def contrib (dataRow : List ℚ) (t : ℕ × ℕ × ℚ) : ℚ :=
  dataRow.getD t.1 0 * t.2.2

/-! Basic structure of the kernel: the inner loop preserves the output row's
length, and `apply_A` is the per-row accumulation mapped over the batch. -/

theorem accumRow_length {α : Type} [Zero α] [Add α] [Mul α] (dataRow : List α)
    (ts : List (ℕ × ℕ × α)) (out : List α) :
    (accumRow dataRow ts out).length = out.length := by
  induction ts generalizing out with
  | nil => rfl
  | cons t rest ih =>
    obtain ⟨c, r, w⟩ := t
    simp only [accumRow]
    rw [ih, List.length_set]

theorem zip_replicate_self {β γ : Type} (a : β) (l : List γ) :
    (List.replicate l.length a).zip l = l.map (fun b => (a, b)) := by
  induction l with
  | nil => rfl
  | cons x xs ih => simp [List.replicate_succ, ih]

theorem apply_A_eq_map {α : Type} [Zero α] [Add α] [Mul α]
    (op : SparseOperator α) (data : List (List α)) (parallel : Bool) :
    apply_A op data parallel = data.map (applyRow op) := by
  cases parallel with
  | false =>
    show sparse_dot (List.replicate data.length (List.replicate op.output_width 0))
      data op.col op.row op.weight = _
    rw [sparse_dot, zip_replicate_self, List.map_map]
    rfl
  | true =>
    show sparse_dot_pa (List.replicate data.length (List.replicate op.output_width 0))
      data op.col op.row op.weight = _
    rw [sparse_dot_pa, zip_replicate_self, List.map_map]
    rfl

theorem apply_A_length {α : Type} [Zero α] [Add α] [Mul α]
    (op : SparseOperator α) (data : List (List α)) (parallel : Bool) :
    (apply_A op data parallel).length = data.length := by
  rw [apply_A_eq_map, List.length_map]

theorem apply_A_row_length {α : Type} [Zero α] [Add α] [Mul α]
    (op : SparseOperator α) (data : List (List α)) (parallel : Bool) :
    ∀ outRow ∈ apply_A op data parallel, outRow.length = op.output_width := by
  intro outRow h
  rw [apply_A_eq_map] at h
  obtain ⟨dr, _, rfl⟩ := List.mem_map.mp h
  simp [applyRow, accumRow_length]

theorem apply_chunked_eq {α : Type} [Zero α] [Add α] [Mul α]
    (op : SparseOperator α) (chunks : List (List (List α))) :
    apply_chunked op chunks = apply_A op chunks.flatten false := by
  simp only [apply_chunked, apply_A_eq_map, List.map_flatten]

theorem getD_map_lt {β γ : Type} (f : β → γ) (l : List β) (j : ℕ)
    (hj : j < l.length) (d : γ) (d2 : β) :
    (l.map f).getD j d = f (l.getD j d2) := by
  rw [List.getD_eq_getElem _ _ (by simpa using hj), List.getD_eq_getElem _ _ hj,
    List.getElem_map]

theorem getD_set_eq {β : Type} {l : List β} {i : ℕ} (h : i < l.length) (a d : β) :
    (l.set i a).getD i d = a := by
  rw [List.getD_eq_getElem _ _ (by simpa using h)]
  simp

theorem getD_set_ne {β : Type} {l : List β} {i j : ℕ} (h : i ≠ j) (a d : β) :
    (l.set i a).getD j d = l.getD j d := by
  by_cases hj : j < l.length
  · rw [List.getD_eq_getElem _ _ (by simpa using hj), List.getD_eq_getElem _ _ hj]
    exact List.getElem_set_ne h _
  · rw [List.getD_eq_default _ _ (by simpa using Nat.le_of_not_lt hj),
      List.getD_eq_default _ _ (Nat.le_of_not_lt hj)]

theorem getD_replicate_zero (n i : ℕ) : (List.replicate n (0 : ℚ)).getD i 0 = 0 := by
  by_cases h : i < n
  · rw [List.getD_eq_getElem _ _ (by simpa using h)]
    simp
  · rw [List.getD_eq_default _ _ (by simpa using Nat.le_of_not_lt h)]

theorem ext_getD {l1 l2 : List ℚ} (hlen : l1.length = l2.length)
    (h : ∀ i, l1.getD i 0 = l2.getD i 0) : l1 = l2 := by
  apply List.ext_getElem hlen
  intro i h1 h2
  rw [← List.getD_eq_getElem l1 0 h1, ← List.getD_eq_getElem l2 0 h2]
  exact h i

/-- Each destination cell of the inner loop is its initial value plus the sum,
in ascending-`i` order, of the contributions of exactly the nonzeros whose
destination row equals that cell's index. -/
theorem accumRow_getD (dataRow : List ℚ) (ts : List (ℕ × ℕ × ℚ)) (out : List ℚ)
    (r : ℕ) (hr : r < out.length) :
    (accumRow dataRow ts out).getD r 0 =
      out.getD r 0 + ((ts.filter (fun t => t.2.1 == r)).map (contrib dataRow)).sum := by
  induction ts generalizing out with
  | nil => simp [accumRow]
  | cons t rest ih =>
    obtain ⟨c, r2, w⟩ := t
    simp only [accumRow]
    rw [ih _ (by simpa using hr)]
    by_cases h : r2 = r
    · subst h
      rw [getD_set_eq hr]
      simp only [List.filter_cons, beq_self_eq_true, if_true, List.map_cons,
        List.sum_cons, contrib]
      ring
    · rw [getD_set_ne h]
      have hb : ((c, r2, w).2.1 == r) = false := by simp [h]
      simp [List.filter_cons, hb]

theorem sum_filter_map_eq_range {β : Type} (l : List β) (d : β) (p : β → Bool)
    (f : β → ℚ) :
    ((l.filter p).map f).sum =
      (Finset.range l.length).sum
        (fun i => if p (l.getD i d) then f (l.getD i d) else 0) := by
  induction l with
  | nil => simp
  | cons a tl ih =>
    rw [List.length_cons, Finset.sum_range_succ']
    simp only [List.getD_cons_succ, List.getD_cons_zero]
    rw [← ih]
    by_cases h : p a
    · simp [List.filter_cons, h, add_comm]
    · simp [List.filter_cons, h]

/-- C7: for the operator with `nnz=3`, `col=[0,1,1]`, `row=[0,0,1]`,
`weight=[1.0,2.0,3.0]`, `input_width=2`, `output_width=2`, and the batch
`[[1.0, 1.0]]`, `apply` returns exactly `[[3.0, 3.0]]` (duplicate destination
rows are summed: `1.0*1.0 + 1.0*2.0 = 3.0` in cell `[0,0]`). -/
theorem C7_concrete_scenario : apply_A op7 [[1, 1]] false = [[3, 3]] := by
  norm_num [apply_A, sparse_dot, accumRow, op7, List.replicate_succ]

/-- C3: for every batch and every partition of the batch into contiguous row
chunks (in order), applying the operator to each chunk independently and
concatenating the chunk outputs along the row axis in the original order
yields the same result as applying the operator to the whole batch at once
(here as an exact equality: every chunk row is processed by the very same
per-row loop, so this holds for any interpretation of the arithmetic, in
particular bit-for-bit for floating point).  Row positions are preserved
because the equality is an equality of ordered lists of rows. -/
theorem C3_chunk_invariance {α : Type} [Zero α] [Add α] [Mul α]
    (op : SparseOperator α) (chunks : List (List (List α))) :
    apply_chunked op chunks = apply_A op chunks.flatten false :=
  apply_chunked_eq op chunks

/-- C4: for every operator and batch, the serial kernel (`sparse_dot`), the
row-parallel kernel (`sparse_dot_pa`), and the chunked/distributed path
(chunk, apply, concatenate in order) produce identical outputs, and row `j`
of the output is computed from row `j` of the input batch alone, so output
row order matches batch row order however the work was partitioned.  The
statement is over an arbitrary (not even associative) arithmetic, so the
equality is exact — "bit-identical" — precisely because every path performs
the same per-row, ascending-index accumulation. -/
theorem C4_paths_bit_identical {α : Type} [Zero α] [Add α] [Mul α]
    (op : SparseOperator α) (data : List (List α)) (chunks : List (List (List α)))
    (h : chunks.flatten = data) :
    apply_A op data true = apply_A op data false ∧
    apply_chunked op chunks = apply_A op data false ∧
    ∀ j, j < data.length →
      (apply_A op data false).getD j [] = applyRow op (data.getD j []) := by
  refine ⟨rfl, ?_, ?_⟩
  · rw [← h, ← apply_chunked_eq]
  · intro j hj
    rw [apply_A_eq_map]
    exact getD_map_lt _ _ _ hj _ []

/-- Witness for C4 at a concrete operator, batch and partition. -/
theorem C4_paths_bit_identical_witness :
    apply_A op7 [[1, 1], [2, 0]] true = apply_A op7 [[1, 1], [2, 0]] false ∧
    apply_chunked op7 [[[1, 1]], [[2, 0]]] = apply_A op7 [[1, 1], [2, 0]] false ∧
    ∀ j, j < ([[1, 1], [2, 0]] : List (List ℚ)).length →
      (apply_A op7 [[1, 1], [2, 0]] false).getD j [] =
        applyRow op7 (([[1, 1], [2, 0]] : List (List ℚ)).getD j []) :=
  C4_paths_bit_identical op7 [[1, 1], [2, 0]] [[[1, 1]], [[2, 0]]] rfl

/-- C2 as stated is false on the code: `apply_A` contains no shape check at
all.  At the concrete mismatched input `[[1, 1, 1]]` (three columns against
`input_width = 2`) the spec's checked contract (`apply_checked`) fails with
`ShapeMismatch`, but the code happily produces the full output `[[3, 3]]` —
an output IS produced, so "raises ShapeMismatch and performs no partial
writes (no output is produced)" does not hold of the code. -/
theorem C2_counterexample :
    (([[1, 1, 1]] : List (List ℚ)).all (fun r => r.length == op7.input_width)) = false ∧
    apply_checked op7 [[1, 1, 1]] = Except.error ApplyError.ShapeMismatch ∧
    apply_A op7 [[1, 1, 1]] false = [[3, 3]] := by
  refine ⟨rfl, rfl, ?_⟩
  norm_num [apply_A, sparse_dot, accumRow, op7, List.replicate_succ]

/-- C2 (amended): the code performs no shape validation.  `apply_A` is total:
for every batch — matching width or not — it returns an output of shape
`(batch_size, output_width)` and raises nothing; in particular no
`ShapeMismatch` is raised when the widths match, and the spec's checked
contract `apply_checked` coincides with the code exactly on width-matching
batches. -/
theorem C2_no_shape_check (op : SparseOperator ℚ) (data : List (List ℚ)) :
    ((data.all (fun r => r.length == op.input_width)) = true →
      apply_checked op data = Except.ok (apply_A op data false)) ∧
    (apply_A op data false).length = data.length ∧
    (∀ outRow ∈ apply_A op data false, outRow.length = op.output_width) := by
  refine ⟨?_, apply_A_length op data false, apply_A_row_length op data false⟩
  intro h
  simp [apply_checked, h]

/-- Witness for C2 (amended) at a width-matching batch. -/
theorem C2_no_shape_check_witness :
    (([[1, 1]] : List (List ℚ)).all (fun r => r.length == op7.input_width) = true →
      apply_checked op7 [[1, 1]] = Except.ok (apply_A op7 [[1, 1]] false)) ∧
    (apply_A op7 [[1, 1]] false).length = 1 ∧
    (∀ outRow ∈ apply_A op7 [[1, 1]] false, outRow.length = op7.output_width) :=
  C2_no_shape_check op7 [[1, 1]]

/-- C8 as stated is false on the code: operator construction
(`col = ds['col'].values - 1`, etc.) performs no validation whatsoever, so an
operator whose indices are out of bounds is constructed successfully — no
`InvalidOperator` error exists anywhere in the source — and the claimed
invariant fails for it.  Concretely, loading raw (1-based) `col = [5]` with
`input_width = 2` yields the operator with `col = [4]`, and `4 < 2` fails. -/
theorem C8_counterexample :
    (load_operator [5] [1] [1] 2 2).col = [4] ∧
    ¬ (∀ c ∈ (load_operator [5] [1] [1] 2 2).col,
        c < (load_operator [5] [1] [1] 2 2).input_width) := by
  constructor
  · rfl
  · intro h
    have h4 := h 4 (by simp [load_operator])
    simp [load_operator] at h4

/-- C8 (amended): construction subtracts 1 from the raw 1-based index arrays
and stores everything with no validation and no error path; neither
construction nor `apply` ever checks bounds.  The invariant
`0 <= col[i] < input_width` and `0 <= row[i] < output_width` therefore holds
exactly when the raw data already lies in range: if every raw index is in
`[1, width]`, the constructed operator satisfies the invariant. -/
theorem C8_load_in_range (raw_col raw_row : List ℕ) (S : List ℚ) (iw ow : ℕ)
    (hc : ∀ x ∈ raw_col, 1 ≤ x ∧ x ≤ iw) (hr : ∀ x ∈ raw_row, 1 ≤ x ∧ x ≤ ow) :
    (∀ c ∈ (load_operator raw_col raw_row S iw ow).col, c < iw) ∧
    (∀ r ∈ (load_operator raw_col raw_row S iw ow).row, r < ow) := by
  constructor
  · intro c hcmem
    simp only [load_operator, List.mem_map] at hcmem
    obtain ⟨x, hx, rfl⟩ := hcmem
    have := hc x hx
    omega
  · intro r hrmem
    simp only [load_operator, List.mem_map] at hrmem
    obtain ⟨x, hx, rfl⟩ := hrmem
    have := hr x hx
    omega

/-- C1: `apply` allocates a zero-initialized output of shape
`(batch_size, output_width)` and accumulates
`output[j, row[i]] += batch[j, col[i]] * weight[i]` over the nonzeros in
ascending order of `i`; equivalently (in exact arithmetic), each final cell
`output[j, r]` is the sum over all `i` with `row[i] == r` of
`batch[j, col[i]] * weight[i]`. -/
theorem C1_apply_is_coo_sum (op : SparseOperator ℚ) (data : List (List ℚ))
    (hc : op.col.length = op.weight.length) (hr : op.row.length = op.weight.length)
    (j r : ℕ) (hj : j < data.length) (hrW : r < op.output_width) :
    (apply_A op data false).length = data.length ∧
    (∀ outRow ∈ apply_A op data false, outRow.length = op.output_width) ∧
    ((apply_A op data false).getD j []).getD r 0 =
      ((Finset.range op.weight.length).filter (fun i => op.row.getD i 0 = r)).sum
        (fun i => (data.getD j []).getD (op.col.getD i 0) 0 * op.weight.getD i 0) := by
  refine ⟨apply_A_length op data false, apply_A_row_length op data false, ?_⟩
  rw [apply_A_eq_map, getD_map_lt _ _ _ hj _ [], applyRow,
    accumRow_getD _ _ _ r (by simpa using hrW), getD_replicate_zero, zero_add]
  have hlen : (triples op).length = op.weight.length := by
    simp [triples, hc, hr]
  rw [sum_filter_map_eq_range _ (0, 0, (0 : ℚ)), hlen, Finset.sum_filter]
  apply Finset.sum_congr rfl
  intro i hi
  have hi2 : i < op.weight.length := Finset.mem_range.mp hi
  have hcl : i < op.col.length := by rw [hc]; exact hi2
  have hrl : i < op.row.length := by rw [hr]; exact hi2
  have htl : i < (triples op).length := by rw [hlen]; exact hi2
  have htrip : (triples op).getD i (0, 0, (0 : ℚ)) =
      (op.col.getD i 0, op.row.getD i 0, op.weight.getD i 0) := by
    rw [List.getD_eq_getElem _ _ htl, List.getD_eq_getElem _ _ hcl,
      List.getD_eq_getElem _ _ hrl, List.getD_eq_getElem _ _ hi2]
    simp only [triples]
    rw [List.getElem_zip, List.getElem_zip]
  rw [htrip]
  simp [contrib]

/-- Witness for C1 at the concrete scenario operator, batch `[[1, 1]]`,
sample row 0 and destination cell 0. -/
theorem C1_apply_is_coo_sum_witness :
    (apply_A op7 [[1, 1]] false).length = 1 ∧
    (∀ outRow ∈ apply_A op7 [[1, 1]] false, outRow.length = op7.output_width) ∧
    ((apply_A op7 [[1, 1]] false).getD 0 []).getD 0 0 =
      ((Finset.range op7.weight.length).filter (fun i => op7.row.getD i 0 = 0)).sum
        (fun i => (([[1, 1]] : List (List ℚ)).getD 0 []).getD (op7.col.getD i 0) 0 *
          op7.weight.getD i 0) :=
  C1_apply_is_coo_sum op7 [[1, 1]] rfl rfl 0 0 (by decide) (by decide)

/-- C9: the inner kernel accumulates into its caller-supplied buffer rather
than overwriting it: after `sparse_dot(data_out, data, col, row, S)`, each
cell `data_out[j, k]` equals its initial value plus the sparse product
contribution for `(j, k)`.  (So `apply`'s all-zero result depends on the
caller zero-initializing the buffer; a non-zero buffer yields prior contents
plus the product.) -/
theorem C9_kernel_accumulates (op : SparseOperator ℚ) (data_out data : List (List ℚ))
    (h : data_out.length = data.length) (j k : ℕ) (hj : j < data.length)
    (hk : k < (data_out.getD j []).length) :
    ((sparse_dot data_out data op.col op.row op.weight).getD j []).getD k 0 =
      (data_out.getD j []).getD k 0 +
      (((triples op).filter (fun t => t.2.1 == k)).map (contrib (data.getD j []))).sum := by
  have hzl : j < (data_out.zip data).length := by
    rw [List.length_zip, h]
    simpa using hj
  rw [sparse_dot, getD_map_lt _ _ _ hzl _ ([], [])]
  have hp : (data_out.zip data).getD j ([], []) = (data_out.getD j [], data.getD j []) := by
    rw [List.getD_eq_getElem _ _ hzl,
      List.getD_eq_getElem _ _ (by rw [h]; exact hj), List.getD_eq_getElem _ _ hj,
      List.getElem_zip]
  rw [hp]
  exact accumRow_getD _ _ _ k hk

/-- Witness for C9: a buffer holding `[[10, 20]]` keeps its prior contents
and gains the product contribution. -/
theorem C9_kernel_accumulates_witness :
    ((sparse_dot [[10, 20]] [[1, 1]] op7.col op7.row op7.weight).getD 0 []).getD 0 0 =
      (([[10, 20]] : List (List ℚ)).getD 0 []).getD 0 0 +
      (((triples op7).filter (fun t => t.2.1 == 0)).map
        (contrib (([[1, 1]] : List (List ℚ)).getD 0 []))).sum :=
  C9_kernel_accumulates op7 [[10, 20]] [[1, 1]] rfl 0 0 (by decide) (by decide)

theorem accumRow_congr (ts : List (ℕ × ℕ × ℚ)) (r1 r2 : List ℚ)
    (h : ∀ t ∈ ts, r1.getD t.1 0 = r2.getD t.1 0) :
    ∀ out, accumRow r1 ts out = accumRow r2 ts out := by
  induction ts with
  | nil => intro out; rfl
  | cons t rest ih =>
    intro out
    obtain ⟨c, rr, w⟩ := t
    simp only [accumRow]
    have hc := h (c, rr, w) (List.mem_cons_self _ _)
    simp only at hc
    rw [hc]
    exact ih (fun t2 ht2 => h t2 (List.mem_cons_of_mem _ ht2)) _

/-- C10: the output depends only on the batch columns the operator
references: two equal-shape batches that agree, row by row, at every column
index appearing in `col` produce identical outputs; entries at other columns
never influence the result. -/
theorem C10_depends_only_on_referenced_columns (op : SparseOperator ℚ)
    (b1 b2 : List (List ℚ)) (hlen : b1.length = b2.length)
    (hrows : ∀ j, j < b1.length → (b1.getD j []).length = (b2.getD j []).length)
    (hagree : ∀ j, j < b1.length → ∀ c ∈ op.col,
      (b1.getD j []).getD c 0 = (b2.getD j []).getD c 0) :
    apply_A op b1 false = apply_A op b2 false := by
  rw [apply_A_eq_map, apply_A_eq_map]
  apply List.ext_getElem (by simpa using hlen)
  intro i h1 h2
  rw [List.getElem_map, List.getElem_map]
  have hib : i < b1.length := by simpa using h1
  unfold applyRow
  apply accumRow_congr
  intro t ht
  simp only [triples] at ht
  obtain ⟨c, rest⟩ := t
  have hc : c ∈ op.col := (List.of_mem_zip ht).1
  have hag := hagree i hib c hc
  rw [List.getD_eq_getElem b1 [] hib,
    List.getD_eq_getElem b2 [] (by rw [← hlen]; exact hib)] at hag
  exact hag

/-- Witness for C10: batches `[[1, 1, 5]]` and `[[1, 1, 7]]` differ only in
column 2, which `op7.col = [0, 1, 1]` never references. -/
theorem C10_depends_only_on_referenced_columns_witness :
    apply_A op7 [[1, 1, 5]] false = apply_A op7 [[1, 1, 7]] false :=
  C10_depends_only_on_referenced_columns op7 [[1, 1, 5]] [[1, 1, 7]]
    rfl (by decide) (by decide)

theorem sum_map_combo {β : Type} (L : List β) (a b : ℚ) (f g : β → ℚ) :
    (L.map (fun t => a * f t + b * g t)).sum =
      a * (L.map f).sum + b * (L.map g).sum := by
  induction L with
  | nil => simp
  | cons x xs ih =>
    simp only [List.map_cons, List.sum_cons, ih]
    ring

theorem getD_combo_fused (a b : ℚ) (r1 r2 : List ℚ) (hlen : r1.length = r2.length)
    (c : ℕ) :
    (List.zipWith (fun x y => a * x + b * y) r1 r2).getD c 0 =
      a * r1.getD c 0 + b * r2.getD c 0 := by
  by_cases h : c < r1.length
  · rw [List.getD_eq_getElem _ _ (by simp [hlen]; omega),
      List.getD_eq_getElem _ _ h, List.getD_eq_getElem _ _ (by rw [← hlen]; exact h)]
    simp
  · rw [List.getD_eq_default _ _ (by simp [hlen]; omega),
      List.getD_eq_default _ _ (Nat.le_of_not_lt h),
      List.getD_eq_default _ _ (by rw [← hlen]; exact Nat.le_of_not_lt h)]
    ring

/-- Linearity of the per-row kernel over exact arithmetic. -/
theorem applyRow_linear (op : SparseOperator ℚ) (a b : ℚ) (r1 r2 : List ℚ)
    (hlen : r1.length = r2.length) :
    applyRow op (List.zipWith (fun x y => a * x + b * y) r1 r2) =
      List.zipWith (fun x y => a * x + b * y) (applyRow op r1) (applyRow op r2) := by
  have hW : ∀ dr : List ℚ, (applyRow op dr).length = op.output_width := by
    intro dr
    simp [applyRow, accumRow_length]
  apply ext_getD
  · simp [hW]
  intro i
  by_cases hi : i < op.output_width
  · rw [getD_combo_fused a b (applyRow op r1) (applyRow op r2) (by simp [hW]) i]
    simp only [applyRow] at hW ⊢
    rw [accumRow_getD _ _ _ i (by simpa using hi),
      accumRow_getD _ _ _ i (by simpa using hi),
      accumRow_getD _ _ _ i (by simpa using hi),
      getD_replicate_zero, zero_add, zero_add, zero_add]
    have hcontrib : ∀ t ∈ (triples op).filter (fun t => t.2.1 == i),
        contrib (List.zipWith (fun x y => a * x + b * y) r1 r2) t =
          a * contrib r1 t + b * contrib r2 t := by
      intro t _
      simp only [contrib]
      rw [getD_combo_fused a b r1 r2 hlen]
      ring
    rw [List.map_congr_left hcontrib, sum_map_combo]
  · have hLW : (applyRow op (List.zipWith (fun x y => a * x + b * y) r1 r2)).length
        = op.output_width := hW _
    rw [List.getD_eq_default _ _ (by rw [hLW]; omega),
      List.getD_eq_default _ _ (by simp [hW]; omega)]

/-- C6: `apply` is linear in the batch over exact arithmetic: for every
operator, every two batches of matching shape and every pair of scalars,
`apply(op, a*b1 + b*b2) = a*apply(op, b1) + b*apply(op, b2)`. -/
theorem C6_linearity (op : SparseOperator ℚ) (a b : ℚ) (b1 b2 : List (List ℚ))
    (hshape : List.Forall₂ (fun r1 r2 => r1.length = r2.length) b1 b2) :
    apply_A op (batchAdd (batchSmul a b1) (batchSmul b b2)) false =
      batchAdd (batchSmul a (apply_A op b1 false)) (batchSmul b (apply_A op b2 false)) := by
  simp only [batchAdd, batchSmul, apply_A_eq_map, List.map_map, List.zipWith_map,
    List.map_zipWith, Function.comp]
  induction hshape with
  | nil => rfl
  | cons h1 _ ih =>
    simp only [List.zipWith_cons_cons, ih, List.cons.injEq, and_true]
    exact applyRow_linear op a b _ _ h1

/-- Witness for C6 at concrete shapes and scalars. -/
theorem C6_linearity_witness :
    apply_A op7 (batchAdd (batchSmul 2 [[1, 0]]) (batchSmul 3 [[0, 1]])) false =
      batchAdd (batchSmul 2 (apply_A op7 [[1, 0]] false))
        (batchSmul 3 (apply_A op7 [[0, 1]] false)) :=
  C6_linearity op7 2 3 [[1, 0]] [[0, 1]] (List.Forall₂.cons rfl List.Forall₂.nil)

/-- C5 as stated is false on the code: the spec's listed conditions for an
"identity-like permutation" (equal widths, `row[i] == col[i]`,
`weight[i] == 1`, no duplicate rows) do not force every destination index to
be covered.  `opId` satisfies every listed condition, yet destination row 1
receives no contribution, so `apply(opId, [[5, 7]]) = [[5, 0]] ≠ [[5, 7]]`. -/
theorem C5_counterexample :
    opId.input_width = opId.output_width ∧
    opId.col = opId.row ∧
    opId.weight = List.replicate opId.row.length 1 ∧
    opId.row.Nodup ∧
    (∀ r ∈ opId.row, r < opId.output_width) ∧
    (∀ dr ∈ ([[5, 7]] : List (List ℚ)), dr.length = opId.input_width) ∧
    apply_A opId [[5, 7]] false ≠ [[5, 7]] := by
  refine ⟨rfl, rfl, rfl, by decide, by decide, ?_, ?_⟩
  · intro dr hdr
    rw [List.mem_singleton] at hdr
    subst hdr
    rfl
  · norm_num [apply_A, sparse_dot, accumRow, opId, List.replicate_succ]

theorem triples_of_id (l : List ℕ) :
    l.zip (l.zip (List.replicate l.length (1 : ℚ))) = l.map (fun r => (r, r, 1)) := by
  induction l with
  | nil => rfl
  | cons x xs ih => simp [List.replicate_succ, ih]

theorem id_triples_filter_sum (dr : List ℚ) (l : List ℕ) (i : ℕ)
    (hnd : l.Nodup) (hmem : i ∈ l) :
    (((l.map (fun r => (r, r, (1 : ℚ)))).filter (fun t => t.2.1 == i)).map
      (contrib dr)).sum = dr.getD i 0 := by
  induction l with
  | nil => cases hmem
  | cons x xs ih =>
    simp only [List.map_cons, List.filter_cons]
    by_cases h : x = i
    · subst h
      have hx : x ∉ xs := (List.nodup_cons.mp hnd).1
      have hrest : (xs.map (fun r => (r, r, (1 : ℚ)))).filter
          (fun t => t.2.1 == x) = [] := by
        rw [List.filter_eq_nil_iff]
        intro t ht
        obtain ⟨r2, hr2, rfl⟩ := List.mem_map.mp ht
        simp only [beq_iff_eq]
        intro hrx
        exact hx (hrx ▸ hr2)
      simp [hrest, contrib]
    · have hxs : i ∈ xs := by
        rcases List.mem_cons.mp hmem with h1 | h1
        · exact absurd h1.symm h
        · exact h1
      have hb : (((x, x, (1 : ℚ))).2.1 == i) = false := by simp [h]
      simp only [hb, if_false]
      exact ih (List.nodup_cons.mp hnd).2 hxs

/-- C5 (amended): for an operator that is a genuine identity permutation —
equal widths, `row[i] == col[i]`, `weight[i] == 1`, no duplicate rows, rows
in range, and (the condition the counterexample forces) every destination
index below `output_width` appearing among the rows — `apply(op, batch)`
equals the batch exactly, for every batch of matching width. -/
theorem C5_identity_permutation (op : SparseOperator ℚ) (data : List (List ℚ))
    (hw : op.input_width = op.output_width)
    (hcr : op.col = op.row)
    (h1 : op.weight = List.replicate op.row.length 1)
    (hnd : op.row.Nodup)
    (hbound : ∀ r ∈ op.row, r < op.output_width)
    (hcover : ∀ r, r < op.output_width → r ∈ op.row)
    (hdata : ∀ dr ∈ data, dr.length = op.input_width) :
    apply_A op data false = data := by
  rw [apply_A_eq_map]
  have hrow : ∀ dr ∈ data, applyRow op dr = dr := by
    intro dr hdr
    have hdrl : dr.length = op.output_width := by rw [hdata dr hdr, hw]
    have htr : triples op = op.row.map (fun r => (r, r, 1)) := by
      rw [triples, hcr, h1, triples_of_id]
    apply ext_getD
    · simp [applyRow, accumRow_length, hdrl]
    intro i
    by_cases hi : i < op.output_width
    · rw [applyRow, accumRow_getD _ _ _ i (by simpa using hi),
        getD_replicate_zero, zero_add, htr,
        id_triples_filter_sum dr op.row i hnd (hcover i hi)]
    · rw [List.getD_eq_default _ _ (by simp [applyRow, accumRow_length]; omega),
        List.getD_eq_default _ _ (by rw [hdrl]; omega)]
  calc data.map (applyRow op) = data.map id := List.map_congr_left hrow
    _ = data := List.map_id data

/-- A genuine identity permutation operator on width 2 (a transposition). -/
def opPerm : SparseOperator ℚ :=
  { col := [1, 0], row := [1, 0], weight := [1, 1],
    input_width := 2, output_width := 2 }

/-- Witness for C5 (amended): a genuine transposition on width 2. -/
theorem C5_identity_permutation_witness :
    apply_A opPerm [[5, 7]] false = [[5, 7]] :=
  C5_identity_permutation opPerm
    [[5, 7]] rfl rfl rfl (by decide) (by decide) (by decide)
    (by
      intro dr hdr
      rw [List.mem_singleton] at hdr
      subst hdr
      rfl)

/-- Witness for C8 (amended) at concrete in-range raw data. -/
theorem C8_load_in_range_witness :
    (∀ c ∈ (load_operator [1, 2] [2, 1] [1, 1] 2 2).col,
      c < (2 : ℕ)) ∧
    (∀ r ∈ (load_operator [1, 2] [2, 1] [1, 1] 2 2).row,
      r < (2 : ℕ)) :=
  C8_load_in_range [1, 2] [2, 1] [1, 1] 2 2 (by decide) (by decide)

end SparseDot
